import Mathlib

set_option autoImplicit false

/-!
Verification development for the `streamrecorder` repository (a Twitch HLS
recorder).  The repository holds two drafts of the same design:
`src/main.rs` (`Recorder`) and `src/recorder.rs` (`SegmentRecorder`).  We give
a shallow embedding of the segment-acquisition loop of both drafts and of the
helper functions (`choose_variant`, `extract_channel`, the `OpenOptions`
builders), and prove the spec's testable properties about them.

Modelling conventions:
* segment bytes are `List Nat`;
* network I/O is an oracle: a playlist poll yields a `PollOutcome`
  (`timeout` means "no response arrived within the playlist-fetch bound"),
  a segment fetch yields a `SegOutcome` (`fail part e` means the fetch or
  the following `write_all` failed with error `e` after `part` bytes had
  already reached the file);
* real durations are not modelled; `tokio::time::timeout(10 s, …)` is
  modelled by the `PollOutcome.timeout` constructor together with the
  constant `playlistTimeoutSecs`, and `sleep(5 s)` is a no-op;
* the diagnostic byte counter (`total_bytes`, verbose printing) is
  observability only and is not modelled.
-/

namespace StreamRec

/-- Rust `str::split(sep)` for a `char` separator, on the character list of
the string.  Splitting any string yields at least one piece. -/
def splitChar (sep : Char) : List Char → List (List Char)
  | [] => [[]]
  | c :: cs =>
    if c = sep then [] :: splitChar sep cs
    else
      match splitChar sep cs with
      | [] => [[c]]
      | p :: ps => (c :: p) :: ps

/-- Strip one trailing carriage return, as Rust `str::lines` does on every
line that was terminated by a line feed. -/
def stripCr (l : List Char) : List Char :=
  if l.getLast? = some '\r' then l.dropLast else l

/-- Rust `str::lines`: split at `'\n'`; every piece except the last was
newline-terminated and loses a trailing `'\r'`; a final empty piece (from a
trailing newline, or from the empty string) is dropped; a last piece without
a line feed keeps a trailing `'\r'`. -/
def rustLines (s : String) : List String :=
  let ps := splitChar '\n' s.data
  let body := ps.dropLast.map stripCr
  let last :=
    match ps.getLast? with
    | some [] => []
    | some l => [l]
    | none => []
  (body ++ last).map String.mk

/-- Rust `line.starts_with('#')`. -/
def startsWithHash (s : String) : Bool :=
  match s.data with
  | [] => false
  | c :: _ => c == '#'

/-- The skip test of the segment loop (`recorder.rs:247`, `main.rs:149`):
a line is skipped when it starts with `'#'` or is empty. -/
def skipLine (s : String) : Bool :=
  startsWithHash s || s.data.isEmpty

/-- The playlist parser as performed inline by the loop: keep, in document
order, exactly the lines that are not skipped (mirrors the
`continue`-structure of the `for` loop). -/
def collectLocators : List String → List String
  | [] => []
  | l :: ls =>
    if skipLine l then collectLocators ls
    else l :: collectLocators ls

/-- Parse one playlist snapshot into its ordered locator sequence. -/
def parsePlaylist (s : String) : List String :=
  collectLocators (rustLines s)

/-- First-occurrence filtering relative to an already-seen list: the
locators that a loop with seen-set `seen` would newly admit, in order. -/
def dedupFrom (seen : List String) : List String → List String
  | [] => []
  | l :: ls =>
    if seen.contains l then dedupFrom seen ls
    else l :: dedupFrom (seen ++ [l]) ls

/-- First occurrences of a locator list, in order. -/
def firstOccur (ls : List String) : List String := dedupFrom [] ls

/-- Error taxonomy of the spec (§7). -/
inductive Err where
  | netError
  | timeoutError
  | httpStatusError
  | ioError
  deriving DecidableEq, Repr

/-- Outcome of one segment fetch-and-append: `ok b` means the segment's
bytes `b` were fetched and fully appended; `fail part e` means the fetch or
the append failed with `e`, with `part` bytes already written to the file
(`part = []` for a pure fetch failure). -/
inductive SegOutcome where
  | ok (bytes : List Nat)
  | fail (part : List Nat) (e : Err)
  deriving DecidableEq, Repr

/-- The bytes that reach the output file from one segment attempt. -/
def okVal : SegOutcome → List Nat
  | .ok b => b
  | .fail p _ => p

/-- An infallible segment oracle built from a byte function. -/
def pureSeg (f : String → List Nat) : String → SegOutcome :=
  fun l => .ok (f l)

/-- Loop state: the seen set (`HashSet<String>`, modelled as its insertion
order), the bytes of the output file, and the list of segment downloads
attempted so far (each locator recorded at the moment its fetch is issued). -/
structure St where
  seen : List String
  out : List Nat
  downloads : List String
  deriving DecidableEq, Repr

/-- State at loop entry over a fresh (empty) output file. -/
def initSt : St := ⟨[], [], []⟩

/-- `HashSet::insert` (`recorder.rs:250`, `main.rs:151`): returns `true` and
records the locator exactly when it was not yet present. -/
def seenInsert (seen : List String) (l : String) : Bool × List String :=
  if seen.contains l then (false, seen) else (true, seen ++ [l])

/-- Run a sequence of admission calls against the seen set, returning the
list of returned booleans and the final seen set. -/
def seenInsertRun (seen : List String) : List String → List Bool × List String
  | [] => ([], seen)
  | l :: ls =>
    let a := seenInsert seen l
    let r := seenInsertRun a.2 ls
    (a.1 :: r.1, r.2)

/-- The draining `for` loop over one playlist snapshot's lines
(`recorder.rs:246-266`, `main.rs:148-155`): skip directives and blanks,
admit each remaining locator into the seen set, and for a newly admitted
locator fetch the segment and append its bytes; any fetch/append failure
aborts with the error and the state at that moment. -/
def drain (g : String → SegOutcome) : St → List String → Except (Err × St) St
  | st, [] => .ok st
  | st, line :: ls =>
    if skipLine line then drain g st ls
    else if st.seen.contains line then drain g st ls
    else
      match g line with
      | .fail p e => .error (e, ⟨st.seen ++ [line], st.out ++ p, st.downloads ++ [line]⟩)
      | .ok b => drain g ⟨st.seen ++ [line], st.out ++ b, st.downloads ++ [line]⟩ ls

/-- Outcome of one playlist poll: `timeout` = no response within the
playlist-fetch bound, `fail e` = the request or body read failed, `ok t` =
the playlist text `t` arrived. -/
inductive PollOutcome where
  | timeout
  | fail (e : Err)
  | ok (text : String)

/-- The playlist-fetch bound of `SegmentRecorder::run`
(`Duration::from_secs(10)`, recorder.rs:239). -/
def playlistTimeoutSecs : Nat := 10

/-- The inter-cycle sleep (`Duration::from_secs(5)`). -/
def pollIntervalSecs : Nat := 5

/-- `SegmentRecorder::run` (recorder.rs:233-270) over a finite list of poll
outcomes: each cycle fetches the playlist under the 10-second timeout
(`timeout` aborts the session with `Err.timeoutError`), drains its lines,
and sleeps.  `.ok st` means the given cycles completed without fatal error,
leaving state `st` (the real loop would then keep polling). -/
def recRun (g : String → SegOutcome) : St → List PollOutcome → Except (Err × St) St
  | st, [] => .ok st
  | st, c :: cs =>
    match c with
    | .timeout => .error (.timeoutError, st)
    | .fail e => .error (e, st)
    | .ok t =>
      match drain g st (rustLines t) with
      | .error r => .error r
      | .ok st₁ => recRun g st₁ cs

/-- `Recorder::run` (main.rs:145-158): identical drain, but the playlist
fetch has no timeout wrapper, so a poll with no response within the bound
leaves the loop awaiting indefinitely — modelled as `none` (the session
neither terminates nor progresses at the bound). -/
def mainRun (g : String → SegOutcome) : St → List PollOutcome → Option (Except (Err × St) St)
  | st, [] => some (.ok st)
  | st, c :: cs =>
    match c with
    | .timeout => none
    | .fail e => some (.error (e, st))
    | .ok t =>
      match drain g st (rustLines t) with
      | .error r => some (.error r)
      | .ok st₁ => mainRun g st₁ cs

/-- A variant stream (quality name, media-playlist URL, bandwidth). -/
structure Variant where
  name : String
  url : String
  bandwidth : Nat
  deriving DecidableEq, Repr

/-- One comparison step of `Iterator::max_by_key(|v| v.bandwidth)`: keep the
later element on ties, as Rust's `max_by` does. -/
def maxStep (acc : Option Variant) (v : Variant) : Option Variant :=
  match acc with
  | none => some v
  | some m => if m.bandwidth ≤ v.bandwidth then some v else some m

/-- Rust `Iterator::max_by_key(|v| v.bandwidth)`: the last element of
maximal bandwidth, `none` on an empty iterator. -/
def maxByBandwidthLast (vs : List Variant) : Option Variant :=
  vs.foldl maxStep none

/-- ASCII lowercasing of one character (Rust `u8::to_ascii_lowercase`,
lifted to chars: multi-byte characters are never in `'A'..='Z'`). -/
def asciiLower (c : Char) : Char :=
  if 'A' ≤ c ∧ c ≤ 'Z' then Char.ofNat (c.toNat + 32) else c

/-- Rust `str::eq_ignore_ascii_case`. -/
def eqIgnoreAsciiCase (a b : String) : Bool :=
  a.data.map asciiLower == b.data.map asciiLower

end StreamRec

namespace MainRs

open StreamRec

/-- `choose_variant` of main.rs (lines 123-129): case-sensitive quality
match, `"best"` compared exactly. -/
def choose_variant (variants : List Variant) (quality : String) : Option Variant :=
  if quality = "best" then maxByBandwidthLast variants
  else variants.find? (fun v => v.name == quality)

end MainRs

namespace RecorderRs

open StreamRec

/-- `choose_variant` of recorder.rs (lines 189-197): ASCII-case-insensitive
quality match, also for `"best"`. -/
def choose_variant (variants : List Variant) (quality : String) : Option Variant :=
  if eqIgnoreAsciiCase quality "best" then maxByBandwidthLast variants
  else variants.find? (fun v => eqIgnoreAsciiCase v.name quality)

end RecorderRs

namespace StreamRec

/-- The `OpenOptions` flags set by a builder chain. -/
structure OpenOpts where
  create : Bool
  write : Bool
  append : Bool
  truncate : Bool
  deriving DecidableEq, Repr

/-- `OpenOptions::new().create(true).append(true)` (main.rs:141). -/
def mainOpenOpts : OpenOpts := ⟨true, false, true, false⟩

/-- `OpenOptions::new().create(true).write(true).truncate(true)`
(recorder.rs:216-219). -/
def recorderOpenOpts : OpenOpts := ⟨true, true, false, true⟩

/-- File content right after a successful open under the given flags:
an absent file is created empty when `create` is set; an existing file is
emptied when `truncate` is set and kept intact otherwise.  (`none` = the
open fails because the file is absent and `create` is not set.) -/
def openContent (o : OpenOpts) (existing : Option (List Nat)) : Option (List Nat) :=
  match existing with
  | none => if o.create then some [] else none
  | some b => if o.truncate then some [] else some b

/-- main.rs lines 169-171: select the variant first; only on success is the
output file opened.  Returns the file state after this stage together with
the selection result; on selection failure the file is untouched (not even
created). -/
def mainSelectThenOpen (variants : List Variant) (quality : String)
    (existing : Option (List Nat)) : Option (List Nat) × Except String Variant :=
  match MainRs.choose_variant variants quality with
  | none => (existing, .error "Requested quality not found")
  | some v => (openContent mainOpenOpts existing, .ok v)

/-- recorder.rs `record` (lines 32-53): same staging, with the
case-insensitive `choose_variant` and the truncating open. -/
def recSelectThenOpen (variants : List Variant) (quality : String)
    (existing : Option (List Nat)) : Option (List Nat) × Except String Variant :=
  match RecorderRs.choose_variant variants quality with
  | none => (existing, .error "requested quality not found")
  | some v => (openContent recorderOpenOpts existing, .ok v)

/-- Rust `str::trim_end_matches(c)`: remove every trailing occurrence. -/
def trimEndMatches (c : Char) (s : String) : String :=
  String.mk ((s.data.reverse.dropWhile (fun x => x == c)).reverse)

/-- `extract_channel` (recorder.rs:60-67):
`url.trim_end_matches('/').split('/').last()`, erring when `last` yields
nothing. -/
def extract_channel (url : String) : Except String String :=
  match ((splitChar '/' (trimEndMatches '/' url).data).map String.mk).getLast? with
  | none => .error "cannot parse channel from URL"
  | some s => .ok s

/-- The same expression in main.rs line 164, whose `.last().unwrap()`
panics exactly when this is `none`. -/
def mainChannel (url : String) : Option String :=
  ((splitChar '/' (trimEndMatches '/' url).data).map String.mk).getLast?

/-- A concrete fallible segment oracle: `"seg0.ts"` succeeds with bytes
`[1]`, every other locator fails with a network error after one stray byte
`[9]` reached the file. -/
def failOracle : String → SegOutcome :=
  fun l => if l = "seg0.ts" then .ok [1] else .fail [9] .netError

/-- The loop state at which a run of `failOracle` over the playlist
`"seg0.ts\nbad.ts\n"` aborts. -/
def failSt : St := ⟨["seg0.ts", "bad.ts"], [1, 9], ["seg0.ts", "bad.ts"]⟩

end StreamRec

namespace StreamRec

/-! ### Helper lemmas about first-occurrence filtering -/

theorem getLast?_cons_of_ne_nil {α : Type} (a : α) {l : List α} (h : l ≠ []) :
    (a :: l).getLast? = l.getLast? := by
  cases l with
  | nil => exact absurd rfl h
  | cons b t => exact List.getLast?_cons_cons

theorem mem_dedupFrom (a : String) :
    ∀ (ls seen : List String), a ∈ dedupFrom seen ls ↔ a ∈ ls ∧ a ∉ seen
  | [], seen => by simp [dedupFrom]
  | l :: ls, seen => by
    by_cases h : l ∈ seen
    · have hb : seen.contains l = true := by simpa using h
      rw [dedupFrom]
      simp only [hb, if_true]
      rw [mem_dedupFrom a ls seen]
      simp only [List.mem_cons]
      constructor
      · rintro ⟨h1, h2⟩
        exact ⟨Or.inr h1, h2⟩
      · rintro ⟨h1, h2⟩
        rcases h1 with h1 | h1
        · exact absurd (h1 ▸ h) h2
        · exact ⟨h1, h2⟩
    · have hb : seen.contains l = false := by simpa using h
      rw [dedupFrom]
      simp only [hb, Bool.false_eq_true, if_false, List.mem_cons]
      rw [mem_dedupFrom a ls (seen ++ [l])]
      simp only [List.mem_append, List.mem_singleton]
      by_cases hal : a = l
      · subst hal
        simp [h]
      · simp [hal]

theorem nodup_dedupFrom :
    ∀ (ls seen : List String), (dedupFrom seen ls).Nodup
  | [], _ => by simp [dedupFrom]
  | l :: ls, seen => by
    by_cases h : l ∈ seen
    · have hb : seen.contains l = true := by simpa using h
      rw [dedupFrom]
      simp only [hb, if_true]
      exact nodup_dedupFrom ls seen
    · have hb : seen.contains l = false := by simpa using h
      rw [dedupFrom]
      simp only [hb, Bool.false_eq_true, if_false]
      refine List.Nodup.cons ?_ (nodup_dedupFrom ls (seen ++ [l]))
      intro hmem
      rcases (mem_dedupFrom l ls (seen ++ [l])).1 hmem with ⟨-, hnot⟩
      exact hnot (by simp)

theorem count_firstOccur (ls : List String) (a : String) :
    (firstOccur ls).count a = if a ∈ ls then 1 else 0 := by
  by_cases h : a ∈ ls
  · rw [if_pos h]
    exact List.count_eq_one_of_mem (nodup_dedupFrom ls [])
      ((mem_dedupFrom a ls []).2 ⟨h, by simp⟩)
  · rw [if_neg h]
    refine List.count_eq_zero_of_not_mem ?_
    intro hmem
    exact h ((mem_dedupFrom a ls []).1 hmem).1

theorem dedupFrom_append :
    ∀ (xs ys seen : List String),
      dedupFrom seen (xs ++ ys) =
        dedupFrom seen xs ++ dedupFrom (seen ++ dedupFrom seen xs) ys
  | [], ys, seen => by simp [dedupFrom]
  | x :: xs, ys, seen => by
    by_cases h : x ∈ seen
    · have hb : seen.contains x = true := by simpa using h
      rw [List.cons_append, dedupFrom, dedupFrom]
      simp only [hb, if_true]
      exact dedupFrom_append xs ys seen
    · have hb : seen.contains x = false := by simpa using h
      rw [List.cons_append, dedupFrom, dedupFrom]
      simp only [hb, Bool.false_eq_true, if_false]
      rw [dedupFrom_append xs ys (seen ++ [x])]
      simp [List.append_assoc]

/-! ### Helper lemmas about the drain loop -/

theorem collectLocators_eq_filter :
    ∀ ls : List String, collectLocators ls = ls.filter (fun l => !skipLine l)
  | [] => rfl
  | l :: ls => by
    by_cases h : skipLine l = true
    · rw [collectLocators]
      simp only [h, if_true, List.filter_cons, Bool.not_true]
      exact collectLocators_eq_filter ls
    · have hb : skipLine l = false := by simpa using h
      rw [collectLocators]
      simp only [hb, Bool.false_eq_true, if_false, List.filter_cons, Bool.not_false]
      rw [collectLocators_eq_filter ls]
      simp

theorem drain_pure (f : String → List Nat) :
    ∀ (ls : List String) (st : St),
      drain (pureSeg f) st ls =
        .ok ⟨st.seen ++ dedupFrom st.seen (collectLocators ls),
             st.out ++ ((dedupFrom st.seen (collectLocators ls)).map f).flatten,
             st.downloads ++ dedupFrom st.seen (collectLocators ls)⟩
  | [], st => by simp [drain, collectLocators, dedupFrom]
  | line :: ls, st => by
    by_cases hskip : skipLine line = true
    · rw [drain, if_pos hskip, collectLocators, if_pos hskip]
      exact drain_pure f ls st
    · have hs : skipLine line = false := by simpa using hskip
      by_cases hseen : st.seen.contains line = true
      · rw [drain, if_neg (by simp [hs]), if_pos hseen, collectLocators,
          if_neg (by simp [hs]), dedupFrom, if_pos hseen]
        exact drain_pure f ls st
      · have hb : st.seen.contains line = false := by simpa using hseen
        rw [collectLocators, if_neg (by simp [hs]), dedupFrom]
        simp only [hb, Bool.false_eq_true, if_false]
        rw [drain, if_neg (by simp [hs]), if_neg hseen]
        show drain (pureSeg f) ⟨st.seen ++ [line], st.out ++ f line, st.downloads ++ [line]⟩ ls = _
        rw [drain_pure f ls ⟨st.seen ++ [line], st.out ++ f line, st.downloads ++ [line]⟩]
        simp [List.append_assoc]

theorem drain_ok (g : String → SegOutcome) :
    ∀ (ls : List String) (st stf : St), drain g st ls = .ok stf →
      ∃ ds, stf.seen = st.seen ++ ds ∧ stf.downloads = st.downloads ++ ds
        ∧ stf.out = st.out ++ (ds.map (fun l => okVal (g l))).flatten
        ∧ ∀ x ∈ ds, ∃ b, g x = .ok b
  | [], st, stf => by
    intro h
    rw [drain] at h
    injection h with h
    subst h
    exact ⟨[], by simp, by simp, by simp, by simp⟩
  | line :: ls, st, stf => by
    intro h
    by_cases hskip : skipLine line = true
    · rw [drain, if_pos hskip] at h
      exact drain_ok g ls st stf h
    · have hs : skipLine line = false := by simpa using hskip
      by_cases hseen : st.seen.contains line = true
      · rw [drain, if_neg (by simp [hs]), if_pos hseen] at h
        exact drain_ok g ls st stf h
      · rw [drain, if_neg (by simp [hs]), if_neg hseen] at h
        cases hg : g line with
        | fail p e =>
          rw [hg] at h
          exact absurd h (by simp)
        | ok b =>
          rw [hg] at h
          obtain ⟨ds, h1, h2, h3, h4⟩ :=
            drain_ok g ls ⟨st.seen ++ [line], st.out ++ b, st.downloads ++ [line]⟩ stf h
          refine ⟨line :: ds, ?_, ?_, ?_, ?_⟩
          · simpa [List.append_assoc] using h1
          · simpa [List.append_assoc] using h2
          · simp only [List.map_cons, List.flatten_cons, hg, okVal]
            simpa [List.append_assoc] using h3
          · intro x hx
            rcases List.mem_cons.1 hx with hx | hx
            · exact ⟨b, hx ▸ hg⟩
            · exact h4 x hx

theorem drain_error (g : String → SegOutcome) :
    ∀ (ls : List String) (st stf : St) (e : Err), drain g st ls = .error (e, stf) →
      ∃ ds l p, stf.seen = st.seen ++ ds ++ [l] ∧ stf.downloads = st.downloads ++ ds ++ [l]
        ∧ stf.out = st.out ++ (ds.map (fun x => okVal (g x))).flatten ++ p
        ∧ g l = .fail p e ∧ ∀ x ∈ ds, ∃ b, g x = .ok b
  | [], st, stf, e => by
    intro h
    rw [drain] at h
    exact absurd h (by simp)
  | line :: ls, st, stf, e => by
    intro h
    by_cases hskip : skipLine line = true
    · rw [drain, if_pos hskip] at h
      exact drain_error g ls st stf e h
    · have hs : skipLine line = false := by simpa using hskip
      by_cases hseen : st.seen.contains line = true
      · rw [drain, if_neg (by simp [hs]), if_pos hseen] at h
        exact drain_error g ls st stf e h
      · rw [drain, if_neg (by simp [hs]), if_neg hseen] at h
        cases hg : g line with
        | fail p e₀ =>
          rw [hg] at h
          injection h with h
          injection h with he hst
          subst he
          subst hst
          exact ⟨[], line, p, by simp, by simp, by simp, hg, by simp⟩
        | ok b =>
          rw [hg] at h
          obtain ⟨ds, l, p, h1, h2, h3, h4, h5⟩ :=
            drain_error g ls ⟨st.seen ++ [line], st.out ++ b, st.downloads ++ [line]⟩ stf e h
          refine ⟨line :: ds, l, p, ?_, ?_, ?_, h4, ?_⟩
          · simpa [List.append_assoc] using h1
          · simpa [List.append_assoc] using h2
          · simp only [List.map_cons, List.flatten_cons, hg, okVal]
            simpa [List.append_assoc] using h3
          · intro x hx
            rcases List.mem_cons.1 hx with hx | hx
            · exact ⟨b, hx ▸ hg⟩
            · exact h5 x hx

/-! ### Helper lemmas about the poll loops -/

theorem recRun_pure (f : String → List Nat) :
    ∀ (texts : List String) (st : St),
      recRun (pureSeg f) st (texts.map PollOutcome.ok) =
        .ok ⟨st.seen ++ dedupFrom st.seen ((texts.map parsePlaylist).flatten),
             st.out ++ ((dedupFrom st.seen ((texts.map parsePlaylist).flatten)).map f).flatten,
             st.downloads ++ dedupFrom st.seen ((texts.map parsePlaylist).flatten)⟩
  | [], st => by simp [recRun, dedupFrom]
  | t :: ts, st => by
    simp only [List.map_cons, recRun, drain_pure, recRun_pure f ts]
    simp [parsePlaylist, dedupFrom_append, List.append_assoc]

theorem recRun_pure_timeout (f : String → List Nat) :
    ∀ (texts : List String) (st : St),
      recRun (pureSeg f) st (texts.map PollOutcome.ok ++ [PollOutcome.timeout]) =
        .error (.timeoutError,
          ⟨st.seen ++ dedupFrom st.seen ((texts.map parsePlaylist).flatten),
           st.out ++ ((dedupFrom st.seen ((texts.map parsePlaylist).flatten)).map f).flatten,
           st.downloads ++ dedupFrom st.seen ((texts.map parsePlaylist).flatten)⟩)
  | [], st => by simp [recRun, dedupFrom]
  | t :: ts, st => by
    simp only [List.map_cons, List.cons_append, recRun, drain_pure, List.append_eq]
    rw [recRun_pure_timeout f ts]
    simp [parsePlaylist, dedupFrom_append, List.append_assoc]

theorem mainRun_pure_timeout (f : String → List Nat) :
    ∀ (texts : List String) (st : St),
      mainRun (pureSeg f) st (texts.map PollOutcome.ok ++ [PollOutcome.timeout]) = none
  | [], _ => rfl
  | t :: ts, st => by
    simp only [List.map_cons, List.cons_append, mainRun, drain_pure]
    exact mainRun_pure_timeout f ts _

theorem recRun_error (g : String → SegOutcome) :
    ∀ (texts : List String) (st stf : St) (e : Err),
      recRun g st (texts.map PollOutcome.ok) = .error (e, stf) →
      ∃ ds l p, stf.seen = st.seen ++ ds ++ [l] ∧ stf.downloads = st.downloads ++ ds ++ [l]
        ∧ stf.out = st.out ++ (ds.map (fun x => okVal (g x))).flatten ++ p
        ∧ g l = .fail p e ∧ ∀ x ∈ ds, ∃ b, g x = .ok b
  | [], st, stf, e => by
    intro h
    rw [List.map_nil, recRun] at h
    exact absurd h (by simp)
  | t :: ts, st, stf, e => by
    intro h
    rw [List.map_cons, recRun] at h
    cases hd : drain g st (rustLines t) with
    | error r =>
      rw [hd] at h
      injection h with h
      subst h
      exact drain_error g (rustLines t) st stf e hd
    | ok st₁ =>
      rw [hd] at h
      obtain ⟨ds₀, g1, g2, g3, g4⟩ := drain_ok g (rustLines t) st st₁ hd
      obtain ⟨ds, l, p, h1, h2, h3, h4, h5⟩ := recRun_error g ts st₁ stf e h
      refine ⟨ds₀ ++ ds, l, p, ?_, ?_, ?_, h4, ?_⟩
      · rw [h1, g1]
        simp [List.append_assoc]
      · rw [h2, g2]
        simp [List.append_assoc]
      · rw [h3, g3]
        simp [List.append_assoc]
      · intro x hx
        rcases List.mem_append.1 hx with hx | hx
        · exact g4 x hx
        · exact h5 x hx

/-! ### Helper lemmas about the seen set -/

theorem contains_true_iff (l : List String) (a : String) : l.contains a = true ↔ a ∈ l :=
  List.elem_iff

theorem seenInsertRun_get? :
    ∀ (calls st : List String) (i : Nat),
      ((seenInsertRun st calls).1)[i]? =
        (calls[i]?).map (fun l => !(st.contains l || (calls.take i).contains l))
  | [], st, i => by simp [seenInsertRun]
  | l :: ls, st, i => by
    cases i with
    | zero =>
      by_cases h : l ∈ st
      · have hb : st.contains l = true := by simpa using h
        simp [seenInsertRun, seenInsert, hb, h]
      · have hb : st.contains l = false := by simpa using h
        simp [seenInsertRun, seenInsert, hb, h]
    | succ i =>
      simp only [seenInsertRun]
      rw [List.getElem?_cons_succ, seenInsertRun_get? ls (seenInsert st l).2 i,
        List.getElem?_cons_succ, List.take_succ_cons]
      cases hx : ls[i]? with
      | none => rfl
      | some x =>
        simp only [Option.map_some']
        refine congrArg some (congrArg (fun b => !b) ?_)
        by_cases h : l ∈ st
        · have hb : st.contains l = true := by simpa using h
          rw [Bool.eq_iff_iff]
          simp only [seenInsert, hb, if_true]
          simp only [Bool.or_eq_true, contains_true_iff, List.mem_cons]
          constructor
          · rintro (hx1 | hx1)
            · exact Or.inl hx1
            · exact Or.inr (Or.inr hx1)
          · rintro (hx1 | hx1 | hx1)
            · exact Or.inl hx1
            · exact Or.inl (hx1 ▸ h)
            · exact Or.inr hx1
        · have hb : st.contains l = false := by simpa using h
          rw [Bool.eq_iff_iff]
          simp only [seenInsert, hb, Bool.false_eq_true, if_false]
          simp only [Bool.or_eq_true, contains_true_iff, List.mem_append,
            List.mem_singleton, List.mem_cons]
          constructor
          · rintro ((hx1 | hx1 | hx1) | hx1)
            · exact Or.inl hx1
            · exact Or.inr (Or.inl hx1)
            · exact absurd hx1 (List.not_mem_nil x)
            · exact Or.inr (Or.inr hx1)
          · rintro (hx1 | hx1 | hx1)
            · exact Or.inl (Or.inl hx1)
            · exact Or.inl (Or.inr (Or.inl hx1))
            · exact Or.inr hx1

theorem seenInsertRun_snd :
    ∀ (calls st : List String), (seenInsertRun st calls).2 = st ++ dedupFrom st calls
  | [], st => by simp [seenInsertRun, dedupFrom]
  | l :: ls, st => by
    by_cases h : l ∈ st
    · have hb : st.contains l = true := by simpa using h
      simp only [seenInsertRun, seenInsert, hb, if_true]
      rw [seenInsertRun_snd ls st, dedupFrom]
      simp [hb, h]
    · have hb : st.contains l = false := by simpa using h
      simp only [seenInsertRun, seenInsert, hb, Bool.false_eq_true, if_false]
      rw [seenInsertRun_snd ls (st ++ [l]), dedupFrom]
      rw [hb]
      simp [List.append_assoc]

/-! ### Helper lemmas about variant selection -/

theorem foldl_maxStep_some :
    ∀ (vs : List Variant) (a : Variant),
      ∃ m, vs.foldl maxStep (some a) = some m ∧ (m ∈ vs ∨ m = a)
        ∧ a.bandwidth ≤ m.bandwidth ∧ ∀ v ∈ vs, v.bandwidth ≤ m.bandwidth
  | [], a => ⟨a, rfl, Or.inr rfl, le_refl _, by simp⟩
  | v :: vs, a => by
    obtain ⟨m, h1, h2, h3, h4⟩ := foldl_maxStep_some vs (if a.bandwidth ≤ v.bandwidth then v else a)
    refine ⟨m, ?_, ?_, ?_, ?_⟩
    · rw [List.foldl_cons]
      have hstep : maxStep (some a) v = some (if a.bandwidth ≤ v.bandwidth then v else a) := by
        by_cases hc : a.bandwidth ≤ v.bandwidth
        · simp [maxStep, hc]
        · simp [maxStep, hc]
      rw [hstep]
      exact h1
    · rcases h2 with h2 | h2
      · exact Or.inl (List.mem_cons_of_mem v h2)
      · by_cases hc : a.bandwidth ≤ v.bandwidth
        · rw [if_pos hc] at h2
          exact Or.inl (h2 ▸ List.mem_cons_self v vs)
        · rw [if_neg hc] at h2
          exact Or.inr h2
    · by_cases hc : a.bandwidth ≤ v.bandwidth
      · rw [if_pos hc] at h3
        exact le_trans hc h3
      · rw [if_neg hc] at h3
        exact h3
    · intro w hw
      rcases List.mem_cons.1 hw with hw | hw
      · subst hw
        by_cases hc : w.bandwidth ≤ ((if w.bandwidth ≤ w.bandwidth then w else w)).bandwidth
        · by_cases hc2 : a.bandwidth ≤ w.bandwidth
          · rw [if_pos hc2] at h3
            exact h3
          · rw [if_neg hc2] at h3
            exact le_trans (le_of_lt (not_le.mp hc2)) h3
        · by_cases hc2 : a.bandwidth ≤ w.bandwidth
          · rw [if_pos hc2] at h3
            exact h3
          · rw [if_neg hc2] at h3
            exact le_trans (le_of_lt (not_le.mp hc2)) h3
      · exact h4 w hw

theorem maxByBandwidthLast_cons_spec (v : Variant) (vs : List Variant) :
    ∃ m, maxByBandwidthLast (v :: vs) = some m ∧ m ∈ v :: vs
      ∧ ∀ w ∈ v :: vs, w.bandwidth ≤ m.bandwidth := by
  obtain ⟨m, h1, h2, h3, h4⟩ := foldl_maxStep_some vs v
  refine ⟨m, h1, ?_, ?_⟩
  · rcases h2 with h2 | h2
    · exact List.mem_cons_of_mem v h2
    · exact h2 ▸ List.mem_cons_self v vs
  · intro w hw
    rcases List.mem_cons.1 hw with hw | hw
    · exact hw ▸ h3
    · exact h4 w hw

theorem maxByBandwidthLast_isSome :
    ∀ (vs : List Variant), (maxByBandwidthLast vs = none) ↔ vs = []
  | [] => by simp [maxByBandwidthLast]
  | v :: vs => by
    obtain ⟨m, h1, -, -⟩ := maxByBandwidthLast_cons_spec v vs
    simp [h1]

/-! ### Helper lemmas about URL splitting -/

theorem splitChar_ne_nil (c : Char) : ∀ l : List Char, splitChar c l ≠ []
  | [] => by simp [splitChar]
  | x :: xs => by
    rw [splitChar]
    by_cases h : x = c
    · simp [h]
    · rw [if_neg h]
      cases hs : splitChar c xs with
      | nil => simp
      | cons p ps => simp

theorem splitChar_length_eq_one_iff (c : Char) :
    ∀ l : List Char, (splitChar c l).length = 1 ↔ c ∉ l
  | [] => by simp [splitChar]
  | x :: xs => by
    rw [splitChar]
    by_cases h : x = c
    · rw [if_pos h]
      simp only [List.length_cons]
      constructor
      · intro hlen
        exfalso
        exact splitChar_ne_nil c xs (List.length_eq_zero.1 (Nat.succ_injective hlen))
      · intro hmem
        exact absurd (h ▸ List.mem_cons_self x xs) hmem
    · rw [if_neg h]
      cases hs : splitChar c xs with
      | nil => exact absurd hs (splitChar_ne_nil c xs)
      | cons q qs =>
        have ih := splitChar_length_eq_one_iff c xs
        rw [hs] at ih
        simp only [List.length_cons] at ih ⊢
        rw [ih]
        simp only [List.mem_cons, not_or]
        constructor
        · intro hnx
          exact ⟨fun hcx => h hcx.symm, hnx⟩
        · rintro ⟨-, hnx⟩
          exact hnx

theorem splitChar_getLast (c : Char) :
    ∀ l : List Char, ∃ p, (splitChar c l).getLast? = some p ∧ c ∉ p
      ∧ ((splitChar c l = [l] ∧ p = l) ∨ (c :: p) <:+ l)
  | [] => ⟨[], rfl, by simp, Or.inl ⟨rfl, rfl⟩⟩
  | x :: xs => by
    obtain ⟨p, hp, hcp, hd⟩ := splitChar_getLast c xs
    by_cases h : x = c
    · subst h
      rw [splitChar, if_pos rfl]
      refine ⟨p, ?_, hcp, Or.inr ?_⟩
      · rw [getLast?_cons_of_ne_nil _ (splitChar_ne_nil x xs)]
        exact hp
      · rcases hd with ⟨hs1, hs2⟩ | hs
        · subst hs2
          exact ⟨[], rfl⟩
        · exact hs.trans (List.suffix_cons x xs)
    · rw [splitChar, if_neg h]
      cases hs : splitChar c xs with
      | nil => exact absurd hs (splitChar_ne_nil c xs)
      | cons q qs =>
        cases qs with
        | nil =>
          rw [hs] at hp
          have hq : q = p := by
            have : some q = some p := hp
            injection this
          have hnotc : c ∉ xs := (splitChar_length_eq_one_iff c xs).1 (by rw [hs]; rfl)
          rcases hd with ⟨hs1, hs2⟩ | hsfx
          · have hq2 : q = xs := by
              rw [hs] at hs1
              injection hs1
            refine ⟨x :: q, rfl, ?_, Or.inl ⟨?_, ?_⟩⟩
            · intro hcmem
              rcases List.mem_cons.1 hcmem with hcm | hcm
              · exact h hcm.symm
              · exact hnotc (hq2 ▸ hcm)
            · rw [hq2]
            · rw [hq2]
          · exact absurd (hsfx.subset (List.mem_cons_self c p)) hnotc
        | cons q₂ qs₂ =>
          rw [hs] at hp
          rw [List.getLast?_cons_cons] at hp
          refine ⟨p, ?_, hcp, Or.inr ?_⟩
          · rw [List.getLast?_cons_cons]
            exact hp
          · rcases hd with ⟨hs1, hs2⟩ | hsfx
            · rw [hs] at hs1
              injection hs1 with h1 h2
              exact absurd h2 (by simp)
            · exact hsfx.trans (List.suffix_cons x xs)

/-! ### Claim theorems -/

/-- C1 (order preservation): over any sequence of successfully fetched
playlists and an infallible segment oracle `f`, the loop succeeds and the
bytes written to the output file are exactly the concatenation, in order, of
the segment bytes of each locator taken the first time it occurs across the
concatenation of the parsed locator lists; the downloads happen in exactly
that order (the state records them sequentially), never reordered. -/
theorem claim1_order_preservation (f : String → List Nat) (texts : List String) :
    recRun (pureSeg f) initSt (texts.map PollOutcome.ok) =
      .ok ⟨firstOccur ((texts.map parsePlaylist).flatten),
           ((firstOccur ((texts.map parsePlaylist).flatten)).map f).flatten,
           firstOccur ((texts.map parsePlaylist).flatten)⟩ := by
  have h := recRun_pure f texts initSt
  simpa [initSt, firstOccur] using h

/-- C2 (idempotent admission): running any sequence of admissions against a
fresh seen set, the call at index `i` returns `true` exactly when its
locator does not occur among the earlier calls — so the first `admit(L)`
returns `true` and every later `admit(L)` returns `false`, however many
other calls intervene; the final seen set is the first-occurrence list of
all calls and still contains every admitted locator (no eviction). -/
theorem claim2_idempotent_admission (calls : List String) :
    (∀ i : Nat, ((seenInsertRun [] calls).1)[i]? =
        (calls[i]?).map (fun l => !((calls.take i).contains l)))
    ∧ (seenInsertRun [] calls).2 = firstOccur calls
    ∧ ∀ l : String, (seenInsertRun [] calls).2.contains l = calls.contains l := by
  refine ⟨?_, ?_, ?_⟩
  · intro i
    have h := seenInsertRun_get? calls [] i
    simpa using h
  · have h := seenInsertRun_snd calls []
    simpa [firstOccur] using h
  · intro l
    rw [seenInsertRun_snd calls [], Bool.eq_iff_iff]
    simp only [contains_true_iff, List.nil_append]
    constructor
    · intro hm
      exact ((mem_dedupFrom l calls []).1 hm).1
    · intro hm
      exact (mem_dedupFrom l calls []).2 ⟨hm, by simp⟩

/-- C3 (no duplicate downloads): in any successful run, a locator is
downloaded exactly once if it occurs anywhere in the concatenated parsed
playlists and zero times otherwise; concretely, for cycles listing
`seg0.ts,seg1.ts` and then `seg1.ts,seg2.ts` there are exactly three
downloads and the final file is `bytes(seg0) ++ bytes(seg1) ++ bytes(seg2)`. -/
theorem claim3_no_duplicate_downloads :
    (∀ (f : String → List Nat) (texts : List String) (st : St),
        recRun (pureSeg f) initSt (texts.map PollOutcome.ok) = .ok st →
        ∀ l : String, st.downloads.count l =
          if l ∈ (texts.map parsePlaylist).flatten then 1 else 0)
    ∧ ∀ b0 b1 b2 : List Nat,
        recRun (pureSeg (fun l => if l = "seg0.ts" then b0 else if l = "seg1.ts" then b1 else b2))
          initSt (["seg0.ts\nseg1.ts\n", "seg1.ts\nseg2.ts\n"].map PollOutcome.ok) =
          .ok ⟨["seg0.ts", "seg1.ts", "seg2.ts"], b0 ++ (b1 ++ b2),
               ["seg0.ts", "seg1.ts", "seg2.ts"]⟩ := by
  constructor
  · intro f texts st h
    rw [recRun_pure f texts initSt] at h
    injection h with h
    intro l
    rw [← h]
    simp only [initSt, List.nil_append]
    exact count_firstOccur ((texts.map parsePlaylist).flatten) l
  · intro b0 b1 b2
    rw [recRun_pure]
    have hD : dedupFrom [] ((List.map parsePlaylist ["seg0.ts\nseg1.ts\n", "seg1.ts\nseg2.ts\n"]).flatten)
        = ["seg0.ts", "seg1.ts", "seg2.ts"] := by decide
    simp only [initSt, List.nil_append, hD]
    simp

/-- C3 witness: a concrete one-cycle successful run. -/
theorem claim3_no_duplicate_downloads_witness :
    (⟨["a.ts"], [], ["a.ts"]⟩ : St).downloads.count "a.ts" =
      if "a.ts" ∈ ((["a.ts\n"].map parsePlaylist)).flatten then 1 else 0 :=
  claim3_no_duplicate_downloads.1 (fun _ => []) ["a.ts\n"] ⟨["a.ts"], [], ["a.ts"]⟩ rfl "a.ts"

/-- C4 (playlist parsing): parsing keeps exactly the lines that are
non-empty and do not start with `'#'`, in document order; the sample
playlist parses to `[seg0.ts, seg1.ts]`, and an empty string, a
directives-only string, or a trailing unterminated directive all parse to
the empty sequence. -/
theorem claim4_playlist_parsing :
    (∀ s : String, parsePlaylist s =
        (rustLines s).filter (fun l => !startsWithHash l && !l.data.isEmpty))
    ∧ parsePlaylist "#EXTM3U\n#EXT-X-VERSION:3\nseg0.ts\nseg1.ts\n" = ["seg0.ts", "seg1.ts"]
    ∧ parsePlaylist "" = []
    ∧ parsePlaylist "#EXTM3U\n#EXT-X-TARGETDURATION:6\n" = []
    ∧ parsePlaylist "#EXTM3U\n#EXT-X-STREAM-INF:BANDWIDTH=100" = [] := by
  refine ⟨?_, by decide, by decide, by decide, by decide⟩
  intro s
  rw [parsePlaylist, collectLocators_eq_filter]
  simp only [skipLine, Bool.not_or]

/-- C5 counterexample: the claim says every playlist fetch issued by the
poll loop is bounded by a 10-second timeout and that exceeding the bound
terminates the session with `TimeoutError`.  The `main.rs` draft's
`Recorder::run` (cited by the claim) wraps its playlist fetch in no timeout
at all: a poll with no response within the bound leaves the loop awaiting
(`none` in the model), so it does not terminate with `TimeoutError`. -/
theorem claim5_cex_main_has_no_timeout :
    mainRun (pureSeg (fun _ => [])) initSt [PollOutcome.timeout] = none
    ∧ mainRun (pureSeg (fun _ => [])) initSt [PollOutcome.timeout]
        ≠ some (.error (Err.timeoutError, initSt)) := by
  exact ⟨rfl, by simp [mainRun]⟩

/-- C5 (amended): in `SegmentRecorder::run` every playlist fetch is bounded
by the 10-second timeout constant; a cycle whose fetch gets no response
within the bound terminates the session with `TimeoutError`, and all
segments appended in prior cycles remain in the output file.  The `main.rs`
draft's `Recorder::run` applies no timeout, so the same stalled fetch
leaves it waiting indefinitely instead of terminating. -/
theorem claim5_playlist_fetch_bound (f : String → List Nat) (texts : List String) :
    playlistTimeoutSecs = 10
    ∧ recRun (pureSeg f) initSt (texts.map PollOutcome.ok ++ [PollOutcome.timeout]) =
        .error (Err.timeoutError,
          ⟨firstOccur ((texts.map parsePlaylist).flatten),
           ((firstOccur ((texts.map parsePlaylist).flatten)).map f).flatten,
           firstOccur ((texts.map parsePlaylist).flatten)⟩)
    ∧ mainRun (pureSeg f) initSt (texts.map PollOutcome.ok ++ [PollOutcome.timeout]) = none := by
  refine ⟨rfl, ?_, mainRun_pure_timeout f texts initSt⟩
  have h := recRun_pure_timeout f texts initSt
  simpa [initSt, firstOccur] using h

/-- C6 counterexample: the claim says opening the output sink positions for
append so that a preexisting file's bytes are preserved.
`SegmentRecorder::new` (recorder.rs, cited by the claim) opens with
`truncate(true)`: a preexisting file holding byte `7` is emptied, not
preserved. -/
theorem claim6_cex_truncating_open :
    openContent recorderOpenOpts (some [7]) = some []
    ∧ openContent recorderOpenOpts (some [7]) ≠ some [7] := by
  exact ⟨rfl, by simp [openContent, recorderOpenOpts]⟩

/-- C6 (amended): `main.rs`'s `Recorder::new` opens with create+append, so
an absent file is created empty and a preexisting file keeps its bytes
(writes extend it at the end); `recorder.rs`'s `SegmentRecorder::new` opens
with create+write+truncate, so an absent file is created empty but a
preexisting file's bytes are discarded before writing. -/
theorem claim6_open_modes (b : List Nat) :
    openContent mainOpenOpts (some b) = some b
    ∧ openContent mainOpenOpts none = some []
    ∧ openContent recorderOpenOpts (some b) = some []
    ∧ openContent recorderOpenOpts none = some []
    ∧ mainOpenOpts.append = true ∧ mainOpenOpts.truncate = false
    ∧ recorderOpenOpts.truncate = true :=
  ⟨rfl, rfl, rfl, rfl, rfl, rfl, rfl⟩

/-- C6 witness. -/
theorem claim6_open_modes_witness :
    openContent mainOpenOpts (some [7]) = some [7]
    ∧ openContent mainOpenOpts none = some []
    ∧ openContent recorderOpenOpts (some [7]) = some []
    ∧ openContent recorderOpenOpts none = some []
    ∧ mainOpenOpts.append = true ∧ mainOpenOpts.truncate = false
    ∧ recorderOpenOpts.truncate = true :=
  claim6_open_modes [7]

/-- C7 (admit-before-write ordering and failure semantics): whenever a run
over successfully fetched playlists aborts with an error, the seen set
equals the download list (every locator was recorded as seen at the moment
its fetch was attempted), the last attempted locator is the one whose fetch
or append failed with exactly the surfaced error and it remains recorded as
seen, the output file still holds every byte appended by the earlier
(successful) iterations, and all earlier attempts succeeded — the loop
terminated on the first failure without retrying. -/
theorem claim7_admit_before_write (g : String → SegOutcome) (texts : List String)
    (e : Err) (st : St)
    (h : recRun g initSt (texts.map PollOutcome.ok) = .error (e, st)) :
    st.seen = st.downloads
    ∧ ∃ l p, st.downloads.getLast? = some l
        ∧ g l = .fail p e
        ∧ st.seen.contains l = true
        ∧ st.out = ((st.downloads.dropLast).map (fun x => okVal (g x))).flatten ++ p
        ∧ ∀ x ∈ st.downloads.dropLast, ∃ b, g x = .ok b := by
  obtain ⟨ds, l, p, h1, h2, h3, h4, h5⟩ := recRun_error g texts initSt st e h
  simp only [initSt, List.nil_append] at h1 h2 h3
  refine ⟨h1.trans h2.symm, l, p, ?_, h4, ?_, ?_, ?_⟩
  · rw [h2]
    exact List.getLast?_concat ds
  · rw [h1, contains_true_iff]
    simp
  · rw [h3, h2, List.dropLast_concat]
  · rw [h2, List.dropLast_concat]
    exact h5

/-- C7 witness: a concrete failing run. -/
theorem claim7_admit_before_write_witness :
    failSt.seen = failSt.downloads
    ∧ ∃ l p, failSt.downloads.getLast? = some l
        ∧ failOracle l = .fail p Err.netError
        ∧ failSt.seen.contains l = true
        ∧ failSt.out = ((failSt.downloads.dropLast).map (fun x => okVal (failOracle x))).flatten ++ p
        ∧ ∀ x ∈ failSt.downloads.dropLast, ∃ b, failOracle x = .ok b :=
  claim7_admit_before_write failOracle ["seg0.ts\nbad.ts\n"] Err.netError failSt rfl

/-- C8 (variant selection failure): for each draft's `choose_variant`, the
result is `none` exactly when the variant list is empty or, for a requested
named quality, no variant's name matches it (exact match in main.rs,
ASCII-case-insensitive in recorder.rs); whenever selection fails, the
session errors with "quality not found" while the output file is untouched
(not even created) — selection happens before the open; and for quality
`"best"` on a non-empty list both drafts select a variant of maximal
bandwidth. -/
theorem claim8_variant_selection (vs : List Variant) (q : String) :
    (MainRs.choose_variant vs q = none ↔
        (vs = [] ∨ (q ≠ "best" ∧ ∀ v ∈ vs, v.name ≠ q)))
    ∧ (RecorderRs.choose_variant vs q = none ↔
        (vs = [] ∨ (eqIgnoreAsciiCase q "best" = false
            ∧ ∀ v ∈ vs, eqIgnoreAsciiCase v.name q = false)))
    ∧ (∀ ex : Option (List Nat), MainRs.choose_variant vs q = none →
        mainSelectThenOpen vs q ex = (ex, .error "Requested quality not found"))
    ∧ (∀ ex : Option (List Nat), RecorderRs.choose_variant vs q = none →
        recSelectThenOpen vs q ex = (ex, .error "requested quality not found"))
    ∧ (q = "best" → vs ≠ [] →
        ∃ m, MainRs.choose_variant vs q = some m ∧ RecorderRs.choose_variant vs q = some m
          ∧ m ∈ vs ∧ ∀ v ∈ vs, v.bandwidth ≤ m.bandwidth) := by
  refine ⟨?_, ?_, ?_, ?_, ?_⟩
  · by_cases hq : q = "best"
    · subst hq
      rw [MainRs.choose_variant, if_pos rfl, maxByBandwidthLast_isSome]
      simp
    · rw [MainRs.choose_variant, if_neg hq, List.find?_eq_none]
      constructor
      · intro hnone
        refine Or.inr ⟨hq, ?_⟩
        intro v hv
        have := hnone v hv
        simpa using this
      · rintro (hvs | ⟨-, hvs⟩)
        · subst hvs
          simp
        · intro v hv
          simpa using hvs v hv
  · by_cases hq : eqIgnoreAsciiCase q "best" = true
    · rw [RecorderRs.choose_variant, if_pos hq, maxByBandwidthLast_isSome]
      constructor
      · intro hvs
        exact Or.inl hvs
      · rintro (hvs | ⟨hq2, -⟩)
        · exact hvs
        · exact absurd hq (by simp [hq2])
    · have hqf : eqIgnoreAsciiCase q "best" = false := by simpa using hq
      rw [RecorderRs.choose_variant, if_neg hq, List.find?_eq_none]
      constructor
      · intro hnone
        refine Or.inr ⟨hqf, ?_⟩
        intro v hv
        have := hnone v hv
        simpa using this
      · rintro (hvs | ⟨-, hvs⟩)
        · subst hvs
          simp
        · intro v hv
          simp [hvs v hv]
  · intro ex hnone
    simp [mainSelectThenOpen, hnone]
  · intro ex hnone
    simp [recSelectThenOpen, hnone]
  · intro hq hvs
    subst hq
    cases vs with
    | nil => exact absurd rfl hvs
    | cons v vs =>
      obtain ⟨m, h1, h2, h3⟩ := maxByBandwidthLast_cons_spec v vs
      refine ⟨m, ?_, ?_, h2, h3⟩
      · rw [MainRs.choose_variant, if_pos rfl]
        exact h1
      · rw [RecorderRs.choose_variant, if_pos (by decide)]
        exact h1

/-- C8 witness: selecting `"best"` from a concrete one-variant list. -/
theorem claim8_variant_selection_witness :
    ∃ m, MainRs.choose_variant [⟨"360p30", "u", 100⟩] "best" = some m
      ∧ RecorderRs.choose_variant [⟨"360p30", "u", 100⟩] "best" = some m
      ∧ m ∈ [(⟨"360p30", "u", 100⟩ : Variant)]
      ∧ ∀ v ∈ [(⟨"360p30", "u", 100⟩ : Variant)], v.bandwidth ≤ m.bandwidth :=
  (claim8_variant_selection [⟨"360p30", "u", 100⟩] "best").2.2.2.2 rfl (by simp)

/-- C9 counterexample: the two drafts do not implement the same
variant-selection behaviour.  For the quality string `"BEST"` over the
one-variant list `[{name := "720p60", bandwidth := 2000}]`, main.rs's
case-sensitive `choose_variant` finds nothing while recorder.rs's
case-insensitive one selects the variant. -/
theorem claim9_cex_case_sensitivity :
    MainRs.choose_variant [⟨"720p60", "u", 2000⟩] "BEST" = none
    ∧ RecorderRs.choose_variant [⟨"720p60", "u", 2000⟩] "BEST" = some ⟨"720p60", "u", 2000⟩
    ∧ MainRs.choose_variant [⟨"720p60", "u", 2000⟩] "BEST"
        ≠ RecorderRs.choose_variant [⟨"720p60", "u", 2000⟩] "BEST" := by
  refine ⟨by decide, by decide, by decide⟩

/-- C9 (amended): the two drafts select the same element for the exact
quality string `"best"`; for other quality strings they can differ, because
main.rs matches the quality and variant names case-sensitively while
recorder.rs matches ASCII-case-insensitively (e.g. `"BEST"`). -/
theorem claim9_best_agreement (vs : List Variant) :
    MainRs.choose_variant vs "best" = RecorderRs.choose_variant vs "best" := by
  rw [MainRs.choose_variant, if_pos rfl, RecorderRs.choose_variant, if_pos (by decide)]

/-- C10 (channel extraction is total): for every URL string,
`extract_channel` returns `Ok` — its error branch is unreachable because
splitting any string on `'/'` yields at least one piece — and the main.rs
`.last().unwrap()` on the same expression never panics; the returned
channel is the suffix of the trailing-`'/'`-trimmed URL that follows the
last `'/'` (the whole trimmed URL when it has no `'/'`). -/
theorem claim10_extract_channel_total (url : String) :
    ∃ s : String, extract_channel url = .ok s
      ∧ mainChannel url = some s
      ∧ '/' ∉ s.data
      ∧ s.data <:+ (trimEndMatches '/' url).data
      ∧ ((trimEndMatches '/' url).data = s.data
          ∨ ('/' :: s.data) <:+ (trimEndMatches '/' url).data) := by
  obtain ⟨p, hp, hcp, hd⟩ := splitChar_getLast '/' (trimEndMatches '/' url).data
  have hmap : ((splitChar '/' (trimEndMatches '/' url).data).map String.mk).getLast?
      = some (String.mk p) := by
    rw [List.getLast?_map, hp]
    rfl
  refine ⟨String.mk p, ?_, hmap, hcp, ?_, ?_⟩
  · simp only [extract_channel, hmap]
  · show p <:+ (trimEndMatches '/' url).data
    rcases hd with ⟨-, h2⟩ | hs
    · rw [h2]
    · exact (List.suffix_cons '/' p).trans hs
  · rcases hd with ⟨-, h2⟩ | hs
    · exact Or.inl h2.symm
    · exact Or.inr hs

end StreamRec

section Sanity

open StreamRec

example : parsePlaylist "#EXTM3U\n#EXT-X-VERSION:3\nseg0.ts\nseg1.ts\n" = ["seg0.ts", "seg1.ts"] := by decide

example : parsePlaylist "" = [] := by decide

example : rustLines "a\r\nb" = ["a", "b"] := by decide

example : rustLines "a\r" = ["a\r"] := by decide

example : extract_channel "https://www.twitch.tv/forsen/" = .ok "forsen" := rfl

end Sanity
